import Mathlib

/-!
Verification of the balance reconciliation engine of `src/app.py`
(trip-expenses app).

The engine consists of three functions (`src/app.py`, lines 101-148):
  * `_split_parts`  — tokenise a comma-joined participants string,
  * `compute_net`   — per-participant net (paid minus owed),
  * `build_settlement_matrix` — greedy debtor→creditor settlement.

Numeric amounts are modelled as exact rationals (`ℚ`); the literal
`1e-9` of the source becomes the exact rational `1/10^9`.  The pandas
DataFrame of records becomes a list of `ExpenseRecord`; the Python dict
returned by `compute_net` becomes an association list keyed in roster
order; the mutable NxN DataFrame `settle_df` becomes a total function
`String → String → ℚ` that is zero outside of written cells; the
mutable dict `temp` becomes a function updated with `Function.update`.
The `while` loop of `build_settlement_matrix` is embedded as structural
recursion on a fuel argument; fuel `|creditors| + |debtors|` always
suffices because every iteration of the source loop advances at least
one of the two indices (proved below).
-/

namespace TripApp

/-- The tolerance `1e-9` used by `build_settlement_matrix` in app.py. -/
def EPS : ℚ := 1 / 1000000000

/-- One row of the Expenses sheet: Date, Description, Amount, Payer,
Participants (comma-joined string), Currency.  `Amount` is numeric by
the time it reaches the engine (app.py line 95 coerces to numeric). -/
structure ExpenseRecord where
  date : String
  description : String
  amount : ℚ
  payer : String
  participants : String
  currency : String

/-- Python `str.strip()`: drop leading and trailing whitespace. -/
def pyStrip (s : String) : String :=
  ⟨((s.data.dropWhile Char.isWhitespace).reverse.dropWhile Char.isWhitespace).reverse⟩

/-- Python `str.split(",")` on the character list: split at every comma,
keeping empty chunks (`"".split(",") = [""]`). -/
def splitCommaAux : List Char → List Char → List String
  | [], acc => [⟨acc.reverse⟩]
  | ch :: rest, acc =>
    if ch = ',' then ⟨acc.reverse⟩ :: splitCommaAux rest []
    else splitCommaAux rest (ch :: acc)

/-- Python `str.split(",")`. -/
def splitComma (s : String) : List String := splitCommaAux s.data []

/-- app.py line 101: `[x.strip() for x in str(cell).split(",") if x and x.strip()]`. -/
def _split_parts (cell : String) : List String :=
  ((splitComma cell).filter (fun x => x != "" && pyStrip x != "")).map pyStrip

/-- app.py lines 113-116, the per-row `_share`:
`float(row["Amount"]) / k` with `k = len(parts) or 1`. -/
def _share (r : ExpenseRecord) : ℚ :=
  let k := (_split_parts r.participants).length
  r.amount / (if k = 0 then 1 else (k : ℚ))

/-- app.py line 110: `Paid` for one name — sum of `Amount` over the rows
whose `Payer` equals the name. -/
def paidOf (records : List ExpenseRecord) (n : String) : ℚ :=
  ((records.filter (fun r => r.payer == n)).map (fun r => r.amount)).sum

/-- app.py lines 122-125: `Owed` for one name — sum of `Share` over the
rows whose participant token list contains the name. -/
def owedOf (records : List ExpenseRecord) (n : String) : ℚ :=
  ((records.filter (fun r => (_split_parts r.participants).contains n)).map _share).sum

/-- app.py lines 104-129, `compute_net`: returns the net dict
(`Paid - Owed`), keyed by `all_names` in roster order; all-zero when the
record set or the roster is empty. -/
def compute_net (records : List ExpenseRecord) (all_names : List String) :
    List (String × ℚ) :=
  if records.isEmpty || all_names.isEmpty then all_names.map (fun n => (n, 0))
  else all_names.map (fun n => (n, paidOf records n - owedOf records n))

/-- Dict access into the association list returned by `compute_net`. -/
def dlookup (m : List (String × ℚ)) (n : String) : ℚ :=
  ((m.find? (fun p => p.1 == n)).map Prod.snd).getD 0

/-- The settlement DataFrame: cell `[debtor][creditor]` as a total
function, zero outside written cells. -/
abbrev SettleMatrix := String → String → ℚ

/-- The all-zero matrix `pd.DataFrame(0.0, ...)` of app.py line 133. -/
def zeroMatrix : SettleMatrix := fun _ _ => 0

/-- app.py line 143: `settle_df.loc[d, c] = v` (plain assignment). -/
def updateCell (M : SettleMatrix) (d c : String) (v : ℚ) : SettleMatrix :=
  fun x y => if x = d ∧ y = c then v else M x y

/-- app.py line 141: `give = min(temp[c], -temp[d])` for the current
creditor `c` and debtor `d`. -/
def loopGive (temp : String → ℚ) (c d : String) : ℚ := min (temp c) (-(temp d))

/-- app.py lines 144-145: the `temp` dict after one loop iteration —
`temp[c] -= give; temp[d] += give`, executed only when `give > 1e-9`. -/
def loopTemp (temp : String → ℚ) (c d : String) : String → ℚ :=
  let give := loopGive temp c d
  let t1 := if EPS < give then Function.update temp c (temp c - give) else temp
  if EPS < give then Function.update t1 d (t1 d + give) else t1

/-- app.py line 143: `settle_df` after one loop iteration —
`settle_df.loc[d, c] = give`, executed only when `give > 1e-9`. -/
def loopMat (M : SettleMatrix) (temp : String → ℚ) (c d : String) : SettleMatrix :=
  if EPS < loopGive temp c d then updateCell M d c (loopGive temp c d) else M

/-- app.py lines 137-148, the `while ci < len(creditors) and di < len(debtors)`
loop, as structural recursion on fuel.  State: the `temp` dict, the two
remaining index suffixes of `creditors`/`debtors`, and `settle_df`; the
advancing of `ci` (resp. `di`) becomes dropping the head of the creditor
(resp. debtor) suffix.  Each source iteration advances at least one index
(theorem `C8_loop_advances` below), so fuel `|creditors| + |debtors|`
always reaches a genuine exit of the source loop; the fuel-0 branch and
the no-advance branch return the state unchanged — both are unreachable
from `build_settlement_matrix` (the former because fuel is large enough,
the latter by `loopTemp_advances`). -/
def settleLoopF : ℕ → (String → ℚ) → List String → List String →
    SettleMatrix → SettleMatrix × (String → ℚ)
  | 0, temp, _, _, M => (M, temp)
  | _ + 1, temp, [], _, M => (M, temp)
  | _ + 1, temp, _ :: _, [], M => (M, temp)
  | fuel + 1, temp, c :: cs, d :: ds, M =>
    let t2 := loopTemp temp c d
    let M' := loopMat M temp c d
    if t2 c ≤ EPS then
      if -EPS ≤ t2 d then settleLoopF fuel t2 cs ds M'
      else settleLoopF fuel t2 cs (d :: ds) M'
    else
      if -EPS ≤ t2 d then settleLoopF fuel t2 (c :: cs) ds M'
      else (M', t2)

/-- app.py lines 131-148, `build_settlement_matrix`. -/
def build_settlement_matrix (net : String → ℚ) (all_names : List String) :
    SettleMatrix :=
  let creditors := all_names.filter (fun n => decide (0 < net n))
  let debtors := all_names.filter (fun n => decide (net n < 0))
  (settleLoopF (creditors.length + debtors.length) net creditors debtors zeroMatrix).1

/-- Sum of a participant's matrix row over the roster: what they pay out. -/
def rowSum (M : SettleMatrix) (all_names : List String) (n : String) : ℚ :=
  (all_names.map (fun m => M n m)).sum

/-- Sum of a participant's matrix column over the roster: what they receive. -/
def colSum (M : SettleMatrix) (all_names : List String) (n : String) : ℚ :=
  (all_names.map (fun m => M m n)).sum

/-- The non-zero cells of the settlement matrix over the roster grid. -/
def nzCells (M : SettleMatrix) (all_names : List String) :
    Finset (String × String) :=
  (all_names.toFinset ×ˢ all_names.toFinset).filter (fun p => M p.1 p.2 ≠ 0)

/-- Concrete two-person net map `{Alice:+1, Bob:-1}` used as test input. -/
def netPair : String → ℚ := fun n => if n = "Alice" then 1 else if n = "Bob" then -1 else 0

/-- Concrete net map `{A:+50, B:-20, C:-30}` of Scenario D. -/
def netScenD : String → ℚ := fun n =>
  if n = "A" then 50 else if n = "B" then -20 else if n = "C" then -30 else 0

/-! ### Helper evaluations of the string tokeniser on concrete inputs -/

lemma split_parts_ABC : _split_parts "Alice,Bob,Carol" = ["Alice", "Bob", "Carol"] := by
  decide

lemma split_parts_ws : _split_parts "Alice,  ,Bob" = ["Alice", "Bob"] := by
  decide

lemma split_parts_empty : _split_parts "" = [] := by
  decide

/-! ### One-step facts about the greedy loop -/

lemma EPS_pos : 0 < EPS := by norm_num [EPS]

lemma settleLoopF_nil_cred (fuel : ℕ) (temp : String → ℚ) (dl : List String)
    (M : SettleMatrix) : settleLoopF fuel temp [] dl M = (M, temp) := by
  cases fuel <;> rfl

lemma settleLoopF_nil_debt (fuel : ℕ) (temp : String → ℚ) (cl : List String)
    (M : SettleMatrix) : settleLoopF fuel temp cl [] M = (M, temp) := by
  cases fuel <;> cases cl <;> rfl

lemma settleLoopF_succ_cons (fuel : ℕ) (temp : String → ℚ) (c d : String)
    (cs ds : List String) (M : SettleMatrix) :
    settleLoopF (fuel + 1) temp (c :: cs) (d :: ds) M =
      if loopTemp temp c d c ≤ EPS then
        if -EPS ≤ loopTemp temp c d d then
          settleLoopF fuel (loopTemp temp c d) cs ds (loopMat M temp c d)
        else settleLoopF fuel (loopTemp temp c d) cs (d :: ds) (loopMat M temp c d)
      else
        if -EPS ≤ loopTemp temp c d d then
          settleLoopF fuel (loopTemp temp c d) (c :: cs) ds (loopMat M temp c d)
        else (loopMat M temp c d, loopTemp temp c d) := rfl

/-- When a transfer actually happens (`give > EPS`), the current creditor is
strictly positive, the current debtor strictly negative — in particular they
are distinct names. -/
lemma loopGive_pos_facts (temp : String → ℚ) (c d : String)
    (h : EPS < loopGive temp c d) : 0 < temp c ∧ temp d < 0 ∧ c ≠ d := by
  have h0 : 0 < loopGive temp c d := lt_trans EPS_pos h
  have hc : 0 < temp c := lt_of_lt_of_le h0 (min_le_left _ _)
  have hd : temp d < 0 := by
    have := lt_of_lt_of_le h0 (min_le_right (temp c) (-(temp d)))
    linarith
  refine ⟨hc, hd, fun hcd => ?_⟩
  rw [hcd] at hc
  linarith

lemma loopTemp_apply_c (temp : String → ℚ) (c d : String)
    (h : EPS < loopGive temp c d) :
    loopTemp temp c d c = temp c - loopGive temp c d := by
  obtain ⟨-, -, hcd⟩ := loopGive_pos_facts temp c d h
  simp [loopTemp, if_pos h, Function.update, hcd]

lemma loopTemp_apply_d (temp : String → ℚ) (c d : String)
    (h : EPS < loopGive temp c d) :
    loopTemp temp c d d = temp d + loopGive temp c d := by
  obtain ⟨-, -, hcd⟩ := loopGive_pos_facts temp c d h
  simp [loopTemp, if_pos h, Function.update, Ne.symm hcd]

lemma loopTemp_apply_other (temp : String → ℚ) (c d n : String)
    (hn : n ≠ c) (hn' : n ≠ d) : loopTemp temp c d n = temp n := by
  by_cases h : EPS < loopGive temp c d <;>
    simp [loopTemp, h, Function.update, hn, hn']

lemma loopTemp_of_small (temp : String → ℚ) (c d : String)
    (h : ¬ EPS < loopGive temp c d) : loopTemp temp c d = temp := by
  simp [loopTemp, if_neg h]

lemma loopMat_of_small (M : SettleMatrix) (temp : String → ℚ) (c d : String)
    (h : ¬ EPS < loopGive temp c d) : loopMat M temp c d = M := by
  simp [loopMat, if_neg h]

/-- In every iteration of the source loop at least one of the two advancing
conditions (`temp[c] <= 1e-9`, advancing `ci`; `temp[d] >= -1e-9`,
advancing `di`) holds after the update. -/
lemma loopTemp_advances (temp : String → ℚ) (c d : String) :
    loopTemp temp c d c ≤ EPS ∨ -EPS ≤ loopTemp temp c d d := by
  by_cases h : EPS < loopGive temp c d
  · rcases min_choice (temp c) (-(temp d)) with hm | hm
    · left
      rw [loopTemp_apply_c temp c d h]
      have : loopGive temp c d = temp c := hm
      rw [this]
      simp [EPS_pos.le]
    · right
      rw [loopTemp_apply_d temp c d h]
      have : loopGive temp c d = -(temp d) := hm
      rw [this]
      simp [EPS_pos.le]
  · rw [loopTemp_of_small temp c d h]
    rcases min_le_iff.mp (not_lt.mp h : loopGive temp c d ≤ EPS) with h' | h'
    · exact Or.inl h'
    · exact Or.inr (neg_le.mp h')

/-! ### Concrete-scenario claims -/

/-- C5: for every record, the per-participant share is the amount divided by
`max 1 (number of non-empty trimmed participant tokens)`; the participants
string "Alice,  ,Bob" tokenises to `[Alice, Bob]`, so any amount is split
two ways, not three. -/
theorem C5_share_formula :
    (∀ r : ExpenseRecord,
      _share r = r.amount / ((max 1 (_split_parts r.participants).length : ℕ) : ℚ)) ∧
    _split_parts "Alice,  ,Bob" = ["Alice", "Bob"] ∧
    ∀ (dt ds py cu : String) (a : ℚ),
      _share ⟨dt, ds, a, py, "Alice,  ,Bob", cu⟩ = a / 2 := by
  refine ⟨?_, split_parts_ws, ?_⟩
  · intro r
    unfold _share
    rcases h : (_split_parts r.participants).length with _ | k <;> simp [h]
  · intro dt ds py cu a
    unfold _share
    rw [split_parts_ws]
    norm_num

/-- C3: Scenario A.  Roster `[Alice, Bob, Carol]`, single record
`(amount 90, payer Alice, participants "Alice,Bob,Carol")`:
paid = (90,0,0), owed = (30,30,30), net = (60,-30,-30), and the settlement
matrix has exactly Bob→Alice 30 and Carol→Alice 30, all other cells zero
(the matrix is listed row by row over the roster grid). -/
theorem C3_scenarioA :
    let r : ExpenseRecord := ⟨"2024-01-01", "dinner", 90, "Alice", "Alice,Bob,Carol", "USD"⟩
    let roster : List String := ["Alice", "Bob", "Carol"]
    (roster.map fun n => paidOf [r] n) = [90, 0, 0] ∧
    (roster.map fun n => owedOf [r] n) = [30, 30, 30] ∧
    compute_net [r] roster = [("Alice", 60), ("Bob", -30), ("Carol", -30)] ∧
    (roster.map fun x => roster.map fun y =>
      build_settlement_matrix (dlookup (compute_net [r] roster)) roster x y)
      = [[0, 0, 0], [30, 0, 0], [30, 0, 0]] := by
  have hnet : compute_net
      [⟨"2024-01-01", "dinner", 90, "Alice", "Alice,Bob,Carol", "USD"⟩]
      ["Alice", "Bob", "Carol"]
      = [("Alice", 60), ("Bob", -30), ("Carol", -30)] := by
    norm_num +decide [compute_net, paidOf, owedOf, _share, split_parts_ABC]
  refine ⟨?_, ?_, hnet, ?_⟩
  · norm_num +decide [paidOf]
  · norm_num +decide [owedOf, _share, split_parts_ABC]
  · rw [hnet]
    norm_num +decide [build_settlement_matrix, settleLoopF, loopGive, loopTemp, loopMat,
      updateCell, zeroMatrix, dlookup, EPS, Function.update, min_def]

/-- C4: Scenario D.  For net `{A:+50, B:-20, C:-30}` and roster `[A, B, C]`,
the greedy walk drains debtor B fully before debtor C, giving exactly
`matrix[B][A] = 20`, `matrix[C][A] = 30`, zero elsewhere (matrix listed
row by row over the roster grid). -/
theorem C4_scenarioD :
    ((["A", "B", "C"] : List String).map fun x => (["A", "B", "C"] : List String).map fun y =>
      build_settlement_matrix netScenD ["A", "B", "C"] x y)
      = [[0, 0, 0], [20, 0, 0], [30, 0, 0]] := by
  norm_num +decide [netScenD, build_settlement_matrix, settleLoopF, loopGive, loopTemp,
    loopMat, updateCell, zeroMatrix, EPS, Function.update, min_def]

/-- C1 fails as stated: the claim has row and column swapped.  For net
`{Alice:+1, Bob:-1}` the matrix is the single transfer Bob→Alice 1; Alice's
row sum minus column sum is `-1`, which is not within `EPS` of her net `+1`. -/
theorem C1_counterexample :
    ¬ (|rowSum (build_settlement_matrix netPair ["Alice", "Bob"]) ["Alice", "Bob"] "Alice"
        - colSum (build_settlement_matrix netPair ["Alice", "Bob"]) ["Alice", "Bob"] "Alice"
        - netPair "Alice"| ≤ EPS) := by
  have hAA : build_settlement_matrix netPair ["Alice", "Bob"] "Alice" "Alice" = 0 := by
    norm_num +decide [netPair, build_settlement_matrix, settleLoopF, loopGive, loopTemp,
      loopMat, updateCell, zeroMatrix, EPS, Function.update, min_def]
  have hAB : build_settlement_matrix netPair ["Alice", "Bob"] "Alice" "Bob" = 0 := by
    norm_num +decide [netPair, build_settlement_matrix, settleLoopF, loopGive, loopTemp,
      loopMat, updateCell, zeroMatrix, EPS, Function.update, min_def]
  have hBA : build_settlement_matrix netPair ["Alice", "Bob"] "Bob" "Alice" = 1 := by
    norm_num +decide [netPair, build_settlement_matrix, settleLoopF, loopGive, loopTemp,
      loopMat, updateCell, zeroMatrix, EPS, Function.update, min_def]
  simp only [rowSum, colSum, List.map_cons, List.map_nil, List.sum_cons, List.sum_nil,
    hAA, hAB, hBA]
  norm_num [netPair, EPS]

/-- C2 fails as stated: a record whose participants field tokenises to the
empty list satisfies the claim's hypothesis vacuously (all of its — zero —
tokens lie in the roster), but its amount is credited to the payer and
debited to nobody, so the nets sum to the full amount, not ≈ 0.  Record
`(amount 5, payer Alice, participants "")`, roster `[Alice]`: the nets sum
to 5, far beyond `EPS` scaled by the record count (1). -/
theorem C2_counterexample :
    let r : ExpenseRecord := ⟨"2024-01-01", "x", 5, "Alice", "", "USD"⟩
    let roster : List String := ["Alice"]
    (r.payer ∈ roster) ∧ (∀ t ∈ _split_parts r.participants, t ∈ roster) ∧
    ((compute_net [r] roster).map Prod.snd).sum = 5 ∧
    ¬ (|((compute_net [r] roster).map Prod.snd).sum| ≤
        EPS * (([r].length : ℕ) : ℚ)) := by
  have hsum : ((compute_net [⟨"2024-01-01", "x", 5, "Alice", "", "USD"⟩] ["Alice"]).map
      Prod.snd).sum = 5 := by
    norm_num +decide [compute_net, paidOf, owedOf, _share, split_parts_empty]
  refine ⟨by norm_num, ?_, hsum, ?_⟩
  · intro t ht
    rw [split_parts_empty] at ht
    simp at ht
  · rw [hsum]
    norm_num [EPS]

/-- C8: the greedy loop always advances.  After one iteration on creditor
head `c` and debtor head `d`, at least one advancing condition holds, and
one step of `settleLoopF` on non-empty lists is a `settleLoopF` call on
lists of strictly smaller combined length (so the walk ends once either
list is exhausted, and `build_settlement_matrix` — embedded as a total
function on fuel `|creditors| + |debtors|` — never runs out of fuel). -/
theorem C8_loop_advances :
    ∀ (fuel : ℕ) (temp : String → ℚ) (c d : String) (cs ds : List String)
      (M : SettleMatrix),
      (loopTemp temp c d c ≤ EPS ∨ -EPS ≤ loopTemp temp c d d) ∧
      ∃ (temp' : String → ℚ) (cl' dl' : List String) (M' : SettleMatrix),
        cl'.length + dl'.length < (c :: cs).length + (d :: ds).length ∧
        settleLoopF (fuel + 1) temp (c :: cs) (d :: ds) M =
          settleLoopF fuel temp' cl' dl' M' := by
  intro fuel temp c d cs ds M
  refine ⟨loopTemp_advances temp c d, ?_⟩
  rw [settleLoopF_succ_cons]
  by_cases h1 : loopTemp temp c d c ≤ EPS
  · by_cases h2 : -EPS ≤ loopTemp temp c d d
    · exact ⟨loopTemp temp c d, cs, ds, loopMat M temp c d,
        by simp; omega, by rw [if_pos h1, if_pos h2]⟩
    · exact ⟨loopTemp temp c d, cs, d :: ds, loopMat M temp c d,
        by simp, by rw [if_pos h1, if_neg h2]⟩
  · by_cases h2 : -EPS ≤ loopTemp temp c d d
    · exact ⟨loopTemp temp c d, c :: cs, ds, loopMat M temp c d,
        by simp, by rw [if_neg h1, if_pos h2]⟩
    · rcases loopTemp_advances temp c d with h | h
      · exact absurd h h1
      · exact absurd h h2

/-! ### Structure of compute_net -/

/-- `compute_net` always agrees with the ungated formula
`n ↦ (n, paid n - owed n)` mapped over the roster: when the record set is
empty both `paid` and `owed` are zero, and when the roster is empty both
sides are the empty map. -/
lemma compute_net_eq_map (records : List ExpenseRecord) (roster : List String) :
    compute_net records roster
      = roster.map (fun n => (n, paidOf records n - owedOf records n)) := by
  unfold compute_net
  split
  · rename_i h
    have h2 : records.isEmpty = true ∨ roster.isEmpty = true := by simpa using h
    rcases h2 with hr | hro
    · have : records = [] := List.isEmpty_iff.mp hr
      subst this
      apply List.map_congr_left
      intro n _
      simp [paidOf, owedOf]
    · have : roster = [] := List.isEmpty_iff.mp hro
      subst this
      rfl
  · rfl

lemma paidOf_append_not_payer (records : List ExpenseRecord) (r : ExpenseRecord)
    (n : String) (h : r.payer ≠ n) :
    paidOf (records ++ [r]) n = paidOf records n := by
  unfold paidOf
  rw [List.filter_append]
  simp [List.filter_cons, h]

lemma owedOf_append_not_member (records : List ExpenseRecord) (r : ExpenseRecord)
    (n : String) (h : n ∉ _split_parts r.participants) :
    owedOf (records ++ [r]) n = owedOf records n := by
  unfold owedOf
  rw [List.filter_append]
  simp [List.filter_cons, h]

lemma dlookup_zero_map (roster : List String) (n : String) :
    dlookup (roster.map fun m => (m, (0 : ℚ))) n = 0 := by
  unfold dlookup
  induction roster with
  | nil => rfl
  | cons a l ih =>
    rw [List.map_cons, List.find?_cons]
    split
    · rfl
    · exact ih

/-- C6: degenerate inputs raise nothing and give zero outputs — an empty
roster yields the empty map, an empty record set gives every roster member
net zero, and a net map with no creditor or no debtor yields the all-zero
settlement matrix. -/
theorem C6_degenerate :
    (∀ records : List ExpenseRecord, compute_net records [] = []) ∧
    (∀ (roster : List String) (n : String), n ∈ roster →
      dlookup (compute_net [] roster) n = 0) ∧
    (∀ (net : String → ℚ) (roster : List String),
      ((∀ n ∈ roster, ¬ 0 < net n) ∨ (∀ n ∈ roster, ¬ net n < 0)) →
      build_settlement_matrix net roster = zeroMatrix) := by
  refine ⟨fun records => by rw [compute_net_eq_map]; rfl, ?_, ?_⟩
  · intro roster n _
    rw [compute_net_eq_map]
    have : (roster.map fun n => (n, paidOf [] n - owedOf [] n))
        = roster.map fun m => (m, (0 : ℚ)) := by
      apply List.map_congr_left
      intro m _
      simp [paidOf, owedOf]
    rw [this, dlookup_zero_map]
  · intro net roster h
    rcases h with h | h
    · have hc : roster.filter (fun n => decide (0 < net n)) = [] := by
        rw [List.filter_eq_nil_iff]
        intro a ha
        simpa using h a ha
      simp only [build_settlement_matrix]
      rw [hc, settleLoopF_nil_cred]
    · have hd : roster.filter (fun n => decide (net n < 0)) = [] := by
        rw [List.filter_eq_nil_iff]
        intro a ha
        simpa using h a ha
      simp only [build_settlement_matrix]
      rw [hd, settleLoopF_nil_debt]

/-- C6 witness at concrete inputs. -/
theorem C6_degenerate_witness :
    compute_net [⟨"2024-01-01", "x", 7, "Mallory", "Eve", "USD"⟩] [] = [] ∧
    dlookup (compute_net [] ["Alice"]) "Alice" = 0 ∧
    build_settlement_matrix netPair [] = zeroMatrix :=
  ⟨C6_degenerate.1 _, C6_degenerate.2.1 ["Alice"] "Alice" (by simp),
   C6_degenerate.2.2 netPair [] (Or.inl (by simp))⟩

/-- C9: names outside the roster are silently ignored — appending a record
whose payer is not in the roster and none of whose participant tokens is in
the roster leaves the net map unchanged, and the key list of the returned
map is always exactly the roster. -/
theorem C9_unknown_names :
    (∀ (records : List ExpenseRecord) (r : ExpenseRecord) (roster : List String),
      r.payer ∉ roster → (∀ t ∈ _split_parts r.participants, t ∉ roster) →
      compute_net (records ++ [r]) roster = compute_net records roster) ∧
    (∀ (records : List ExpenseRecord) (roster : List String),
      (compute_net records roster).map Prod.fst = roster) := by
  constructor
  · intro records r roster hp ht
    rw [compute_net_eq_map, compute_net_eq_map]
    apply List.map_congr_left
    intro n hn
    have hp' : r.payer ≠ n := fun e => hp (e ▸ hn)
    have ht' : n ∉ _split_parts r.participants := fun hmem => ht n hmem hn
    rw [paidOf_append_not_payer _ _ _ hp', owedOf_append_not_member _ _ _ ht']
  · intro records roster
    rw [compute_net_eq_map, List.map_map]
    exact List.map_id' roster

/-- C9 witness at concrete inputs: a record by Mallory for Eve and Trudy,
none of whom are on the roster `[Alice]`. -/
theorem C9_unknown_names_witness :
    compute_net ([] ++ [⟨"2024-01-01", "x", 7, "Mallory", "Eve,Trudy", "USD"⟩])
        ["Alice"]
      = compute_net [] ["Alice"] ∧
    (compute_net [] ["Alice"]).map Prod.fst = ["Alice"] :=
  ⟨C9_unknown_names.1 [] _ ["Alice"] (by decide) (by decide),
   C9_unknown_names.2 [] ["Alice"]⟩

/-! ### Cell-level invariants of the loop: non-negativity and zero diagonal -/

lemma loopMat_nonneg (M : SettleMatrix) (temp : String → ℚ) (c d : String)
    (hM : ∀ x y, 0 ≤ M x y) : ∀ x y, 0 ≤ loopMat M temp c d x y := by
  intro x y
  unfold loopMat
  split
  · rename_i h
    unfold updateCell
    split
    · exact le_of_lt (lt_trans EPS_pos h)
    · exact hM x y
  · exact hM x y

lemma loopMat_apply_diag (M : SettleMatrix) (temp : String → ℚ) (c d n : String) :
    loopMat M temp c d n n = M n n := by
  unfold loopMat
  split
  · rename_i h
    obtain ⟨-, -, hcd⟩ := loopGive_pos_facts temp c d h
    unfold updateCell
    rw [if_neg]
    rintro ⟨h1, h2⟩
    exact hcd (h2.symm.trans h1)
  · rfl

lemma settleLoopF_nonneg :
    ∀ (fuel : ℕ) (temp : String → ℚ) (cl dl : List String) (M : SettleMatrix),
      (∀ x y, 0 ≤ M x y) → ∀ x y, 0 ≤ (settleLoopF fuel temp cl dl M).1 x y := by
  intro fuel
  induction fuel with
  | zero => intro temp cl dl M hM x y; exact hM x y
  | succ fuel ih =>
    intro temp cl dl M hM x y
    rcases cl with _ | ⟨c, cs⟩
    · rw [settleLoopF_nil_cred]; exact hM x y
    rcases dl with _ | ⟨d, ds⟩
    · rw [settleLoopF_nil_debt]; exact hM x y
    have hM' := loopMat_nonneg M temp c d hM
    rw [settleLoopF_succ_cons]
    split
    · split
      · exact ih _ _ _ _ hM' x y
      · exact ih _ _ _ _ hM' x y
    · split
      · exact ih _ _ _ _ hM' x y
      · exact hM' x y

lemma settleLoopF_diag :
    ∀ (fuel : ℕ) (temp : String → ℚ) (cl dl : List String) (M : SettleMatrix)
      (n : String), (settleLoopF fuel temp cl dl M).1 n n = M n n := by
  intro fuel
  induction fuel with
  | zero => intro temp cl dl M n; rfl
  | succ fuel ih =>
    intro temp cl dl M n
    rcases cl with _ | ⟨c, cs⟩
    · rw [settleLoopF_nil_cred]
    rcases dl with _ | ⟨d, ds⟩
    · rw [settleLoopF_nil_debt]
    rw [settleLoopF_succ_cons]
    split
    · split
      · rw [ih, loopMat_apply_diag]
      · rw [ih, loopMat_apply_diag]
    · split
      · rw [ih, loopMat_apply_diag]
      · exact loopMat_apply_diag M temp c d n

/-- C10: every cell of the settlement matrix is non-negative, and every
diagonal cell is exactly zero — cells are only written for a (current
debtor, current creditor) pair, which when a transfer fires are names with
strictly negative resp. strictly positive remaining balance, hence
distinct, and the written amount `give > EPS > 0`. -/
theorem C10_nonneg_diag :
    ∀ (net : String → ℚ) (roster : List String),
      (∀ x y, 0 ≤ build_settlement_matrix net roster x y) ∧
      (∀ n, build_settlement_matrix net roster n n = 0) := by
  intro net roster
  constructor
  · intro x y
    exact settleLoopF_nonneg _ _ _ _ _ (fun _ _ => le_refl 0) x y
  · intro n
    exact settleLoopF_diag _ _ _ _ _ n

/-! ### Counting non-zero cells -/

lemma nzCells_loopMat_card (M : SettleMatrix) (temp : String → ℚ) (c d : String)
    (roster : List String) :
    (nzCells (loopMat M temp c d) roster).card ≤ (nzCells M roster).card + 1 := by
  unfold loopMat
  split
  · have hsub : nzCells (updateCell M d c (loopGive temp c d)) roster ⊆
        insert (d, c) (nzCells M roster) := by
      intro p hp
      unfold nzCells updateCell at hp
      unfold nzCells
      rw [Finset.mem_filter] at hp
      rw [Finset.mem_insert, Finset.mem_filter]
      by_cases hdc : p = (d, c)
      · exact Or.inl hdc
      · refine Or.inr ⟨hp.1, ?_⟩
        have : ¬ (p.1 = d ∧ p.2 = c) := by
          rintro ⟨h1, h2⟩
          exact hdc (Prod.ext h1 h2)
        rw [if_neg this] at hp
        exact hp.2
    calc (nzCells (updateCell M d c (loopGive temp c d)) roster).card
        ≤ (insert (d, c) (nzCells M roster)).card := Finset.card_le_card hsub
      _ ≤ (nzCells M roster).card + 1 := Finset.card_insert_le _ _
  · exact Nat.le_succ _

lemma settleLoopF_nz_card :
    ∀ (fuel : ℕ) (temp : String → ℚ) (cl dl : List String) (M : SettleMatrix)
      (roster : List String), cl ≠ [] → dl ≠ [] →
      (nzCells (settleLoopF fuel temp cl dl M).1 roster).card ≤
        (nzCells M roster).card + (cl.length + dl.length - 1) := by
  intro fuel
  induction fuel with
  | zero =>
    intro temp cl dl M roster _ _
    exact Nat.le_add_right _ _
  | succ fuel ih =>
    intro temp cl dl M roster hcl hdl
    rcases cl with _ | ⟨c, cs⟩
    · exact absurd rfl hcl
    rcases dl with _ | ⟨d, ds⟩
    · exact absurd rfl hdl
    have hM1 := nzCells_loopMat_card M temp c d roster
    rw [settleLoopF_succ_cons]
    split
    · split
      · by_cases hcs : cs = []
        · subst hcs
          rw [settleLoopF_nil_cred]
          simp only [List.length_cons, List.length_nil]
          omega
        by_cases hds : ds = []
        · subst hds
          rw [settleLoopF_nil_debt]
          simp only [List.length_cons, List.length_nil]
          omega
        · have h2 := ih (loopTemp temp c d) cs ds (loopMat M temp c d) roster hcs hds
          simp only [List.length_cons]
          omega
      · by_cases hcs : cs = []
        · subst hcs
          rw [settleLoopF_nil_cred]
          simp only [List.length_cons, List.length_nil]
          omega
        · have h2 := ih (loopTemp temp c d) cs (d :: ds) (loopMat M temp c d) roster
            hcs (by simp)
          simp only [List.length_cons] at h2 ⊢
          omega
    · split
      · by_cases hds : ds = []
        · subst hds
          rw [settleLoopF_nil_debt]
          simp only [List.length_cons, List.length_nil]
          omega
        · have h2 := ih (loopTemp temp c d) (c :: cs) ds (loopMat M temp c d) roster
            (by simp) hds
          simp only [List.length_cons] at h2 ⊢
          omega
      · simp only [List.length_cons]
        omega

/-- C7: the settlement matrix has at most
`|creditors| + |debtors| - 1` non-zero cells (truncated subtraction on ℕ,
so the degenerate no-creditor/no-debtor cases read "at most 0"), because
every written cell consumes a loop iteration and every iteration advances
at least one of the two indices, the last one past the end of its list. -/
theorem C7_transfer_count :
    ∀ (net : String → ℚ) (roster : List String),
      (nzCells (build_settlement_matrix net roster) roster).card ≤
        (roster.filter (fun n => decide (0 < net n))).length +
          (roster.filter (fun n => decide (net n < 0))).length - 1 := by
  intro net roster
  have h0 : (nzCells zeroMatrix roster).card = 0 := by
    simp [nzCells, zeroMatrix]
  by_cases hc : roster.filter (fun n => decide (0 < net n)) = []
  · simp only [build_settlement_matrix]
    rw [hc, settleLoopF_nil_cred]
    simp [h0]
  by_cases hd : roster.filter (fun n => decide (net n < 0)) = []
  · simp only [build_settlement_matrix]
    rw [hd, settleLoopF_nil_debt]
    simp [h0]
  · have h2 := settleLoopF_nz_card
      ((roster.filter (fun n => decide (0 < net n))).length +
        (roster.filter (fun n => decide (net n < 0))).length)
      net (roster.filter (fun n => decide (0 < net n)))
      (roster.filter (fun n => decide (net n < 0))) zeroMatrix roster hc hd
    simp only [build_settlement_matrix]
    omega

/-! ### Conservation of compute_net -/

lemma list_sum_map_add {α : Type} (l : List α) (f g : α → ℚ) :
    (l.map (fun a => f a + g a)).sum = (l.map f).sum + (l.map g).sum := by
  induction l with
  | nil => simp
  | cons a l ih => simp [ih]; ring

lemma list_sum_map_sub {α : Type} (l : List α) (f g : α → ℚ) :
    (l.map (fun a => f a - g a)).sum = (l.map f).sum - (l.map g).sum := by
  induction l with
  | nil => simp
  | cons a l ih => simp [ih]; ring

lemma list_sum_ite_not_mem (l : List String) (a : String) (ha : a ∉ l) (v : ℚ) :
    (l.map (fun n => if a = n then v else 0)).sum = 0 := by
  induction l with
  | nil => rfl
  | cons b bs ih =>
    have hab : a ≠ b := fun e => ha (e ▸ List.mem_cons_self b bs)
    have hbs : a ∉ bs := fun e => ha (List.mem_cons_of_mem b e)
    simp [hab, ih hbs]

lemma list_sum_ite_eq (l : List String) (hl : l.Nodup) (a : String) (ha : a ∈ l)
    (v : ℚ) : (l.map (fun n => if a = n then v else 0)).sum = v := by
  induction l with
  | nil => cases ha
  | cons b bs ih =>
    rcases List.mem_cons.mp ha with h | h
    · subst h
      have : a ∉ bs := (List.nodup_cons.mp hl).1
      simp [list_sum_ite_not_mem bs a this v]
    · have hab : a ≠ b := fun e => (List.nodup_cons.mp hl).1 (e ▸ h)
      simp [Ne.symm (hab : a ≠ b) , hab, ih (List.nodup_cons.mp hl).2 h]

lemma list_sum_ite_mem (l : List String) (hl : l.Nodup) :
    ∀ (parts : List String), parts.Nodup → (∀ t ∈ parts, t ∈ l) → ∀ v : ℚ,
      (l.map (fun n => if n ∈ parts then v else 0)).sum = parts.length * v := by
  intro parts
  induction parts with
  | nil => intro _ _ v; simp
  | cons p ps ih =>
    intro hnd hsub v
    have hp : p ∉ ps := (List.nodup_cons.mp hnd).1
    have e : ∀ n, (if n ∈ p :: ps then v else 0)
        = (if p = n then v else 0) + (if n ∈ ps then v else 0) := by
      intro n
      by_cases h1 : n = p
      · subst h1
        simp [hp]
      · by_cases h2 : n ∈ ps <;>
          simp [h1, h2, Ne.symm h1, List.mem_cons]
    simp only [e]
    rw [list_sum_map_add, list_sum_ite_eq l hl p (hsub p (List.mem_cons_self p ps)) v,
      ih (List.nodup_cons.mp hnd).2 (fun t ht => hsub t (List.mem_cons_of_mem p ht)) v]
    simp [List.length_cons]
    ring

lemma paidOf_cons (r : ExpenseRecord) (rs : List ExpenseRecord) (n : String) :
    paidOf (r :: rs) n = (if r.payer = n then r.amount else 0) + paidOf rs n := by
  unfold paidOf
  rw [List.filter_cons]
  by_cases h : r.payer = n <;> simp [h]

lemma owedOf_cons (r : ExpenseRecord) (rs : List ExpenseRecord) (n : String) :
    owedOf (r :: rs) n
      = (if n ∈ _split_parts r.participants then _share r else 0) + owedOf rs n := by
  unfold owedOf
  rw [List.filter_cons]
  by_cases h : n ∈ _split_parts r.participants <;> simp [h]

/-- One record's share times its token count gives back its amount, when the
token list is non-empty. -/
lemma share_mul_length (r : ExpenseRecord) (h : _split_parts r.participants ≠ []) :
    ((_split_parts r.participants).length : ℚ) * _share r = r.amount := by
  have hk : (_split_parts r.participants).length ≠ 0 :=
    fun e => h (List.length_eq_zero.mp e)
  simp only [_share]
  rw [if_neg hk]
  rw [mul_div_cancel₀]
  exact Nat.cast_ne_zero.mpr hk

/-- C2 (amended): with a duplicate-free roster, and records whose payer and
participant tokens all lie in the roster and whose token lists are
non-empty and duplicate-free, the nets over the roster sum to exactly
zero. -/
theorem C2_conservation :
    ∀ (records : List ExpenseRecord) (roster : List String),
      roster.Nodup →
      (∀ r ∈ records, r.payer ∈ roster) →
      (∀ r ∈ records, ∀ t ∈ _split_parts r.participants, t ∈ roster) →
      (∀ r ∈ records, _split_parts r.participants ≠ []) →
      (∀ r ∈ records, (_split_parts r.participants).Nodup) →
      ((compute_net records roster).map Prod.snd).sum = 0 := by
  intro records roster hros h1 h2 h3 h4
  rw [compute_net_eq_map, List.map_map]
  have hmap : (Prod.snd ∘ fun n => (n, paidOf records n - owedOf records n))
      = fun n => paidOf records n - owedOf records n := rfl
  rw [hmap]
  clear hmap
  induction records with
  | nil => simp [paidOf, owedOf]
  | cons r rs ih =>
    have e : ∀ n, paidOf (r :: rs) n - owedOf (r :: rs) n
        = ((if r.payer = n then r.amount else 0)
            - (if n ∈ _split_parts r.participants then _share r else 0))
          + (paidOf rs n - owedOf rs n) := by
      intro n
      rw [paidOf_cons, owedOf_cons]
      ring
    simp only [e]
    rw [list_sum_map_add, list_sum_map_sub]
    rw [list_sum_ite_eq roster hros r.payer (h1 r (List.mem_cons_self r rs)) r.amount]
    rw [list_sum_ite_mem roster hros (_split_parts r.participants)
      (h4 r (List.mem_cons_self r rs))
      (h2 r (List.mem_cons_self r rs)) (_share r)]
    rw [share_mul_length r (h3 r (List.mem_cons_self r rs))]
    rw [ih (fun x hx => h1 x (List.mem_cons_of_mem r hx))
      (fun x hx => h2 x (List.mem_cons_of_mem r hx))
      (fun x hx => h3 x (List.mem_cons_of_mem r hx))
      (fun x hx => h4 x (List.mem_cons_of_mem r hx))]
    ring

/-- C2 witness: one 10-unit record split between Alice and Bob on the
roster `[Alice, Bob]` — the nets sum to zero. -/
theorem C2_conservation_witness :
    ((compute_net [⟨"2024-01-01", "taxi", 10, "Alice", "Alice,Bob", "USD"⟩]
        ["Alice", "Bob"]).map Prod.snd).sum = 0 :=
  C2_conservation [⟨"2024-01-01", "taxi", 10, "Alice", "Alice,Bob", "USD"⟩]
    ["Alice", "Bob"] (by decide) (by decide) (by decide) (by decide) (by decide)

/-! ### Row and column sums under a single cell assignment -/

lemma list_map_update_not_mem (l : List String) (a : String) (ha : a ∉ l)
    (f : String → ℚ) (v : ℚ) :
    l.map (fun m => if m = a then v else f m) = l.map f := by
  apply List.map_congr_left
  intro m hm
  rw [if_neg]
  exact fun e => ha (e ▸ hm)

lemma list_sum_update (l : List String) (hl : l.Nodup) (a : String) (ha : a ∈ l)
    (f : String → ℚ) (v : ℚ) :
    (l.map (fun m => if m = a then v else f m)).sum = (l.map f).sum - f a + v := by
  induction l with
  | nil => cases ha
  | cons b bs ih =>
    rcases List.mem_cons.mp ha with h | h
    · subst h
      have hbs : a ∉ bs := (List.nodup_cons.mp hl).1
      rw [List.map_cons, List.map_cons, List.sum_cons, List.sum_cons,
        list_map_update_not_mem bs a hbs f v, if_pos rfl]
      ring
    · have hab : b ≠ a := fun e => (List.nodup_cons.mp hl).1 (e ▸ h)
      rw [List.map_cons, List.map_cons, List.sum_cons, List.sum_cons,
        if_neg hab, ih (List.nodup_cons.mp hl).2 h]
      ring

lemma rowSum_updateCell_d (M : SettleMatrix) (roster : List String)
    (hros : roster.Nodup) (d c : String) (hc : c ∈ roster) (v : ℚ) :
    rowSum (updateCell M d c v) roster d = rowSum M roster d - M d c + v := by
  unfold rowSum updateCell
  simp only [eq_self_iff_true, true_and]
  exact list_sum_update roster hros c hc (fun m => M d m) v

lemma rowSum_updateCell_ne (M : SettleMatrix) (roster : List String)
    (d c x : String) (hx : x ≠ d) (v : ℚ) :
    rowSum (updateCell M d c v) roster x = rowSum M roster x := by
  unfold rowSum updateCell
  apply congrArg
  apply List.map_congr_left
  intro m _
  rw [if_neg]
  rintro ⟨h1, -⟩
  exact hx h1

lemma colSum_updateCell_c (M : SettleMatrix) (roster : List String)
    (hros : roster.Nodup) (d c : String) (hd : d ∈ roster) (v : ℚ) :
    colSum (updateCell M d c v) roster c = colSum M roster c - M d c + v := by
  unfold colSum updateCell
  simp only [eq_self_iff_true, and_true]
  exact list_sum_update roster hros d hd (fun m => M m c) v

lemma colSum_updateCell_ne (M : SettleMatrix) (roster : List String)
    (d c y : String) (hy : y ≠ c) (v : ℚ) :
    colSum (updateCell M d c v) roster y = colSum M roster y := by
  unfold colSum updateCell
  apply congrArg
  apply List.map_congr_left
  intro m _
  rw [if_neg]
  rintro ⟨-, h2⟩
  exact hy h2

lemma rowSum_zeroMatrix (roster : List String) (n : String) :
    rowSum zeroMatrix roster n = 0 := by
  simp [rowSum, zeroMatrix]

lemma colSum_zeroMatrix (roster : List String) (n : String) :
    colSum zeroMatrix roster n = 0 := by
  simp [colSum, zeroMatrix]

/-- Double sums over the same index list commute. -/
lemma list_sum_swap (l1 l2 : List String) (g : String → String → ℚ) :
    (l1.map (fun n => (l2.map (fun m => g m n)).sum)).sum
      = (l2.map (fun m => (l1.map (fun n => g m n)).sum)).sum := by
  induction l1 with
  | nil => simp
  | cons a l1 ih =>
    rw [List.map_cons, List.sum_cons, ih]
    have e : ∀ m, (l1.map (fun n => g m n)).sum + g m a
        = ((a :: l1).map (fun n => g m n)).sum := by
      intro m
      rw [List.map_cons, List.sum_cons]
      ring
    calc (l2.map (fun m => g m a)).sum + (l2.map (fun m => (l1.map (fun n => g m n)).sum)).sum
        = (l2.map (fun m => (l1.map (fun n => g m n)).sum + g m a)).sum := by
          rw [list_sum_map_add]
          ring
      _ = (l2.map (fun m => ((a :: l1).map (fun n => g m n)).sum)).sum := by
          simp only [e]

/-! ### One-step preservation of the flow invariant -/

lemma loopMat_cell_eq (M : SettleMatrix) (temp : String → ℚ) (c d x y : String)
    (h : ¬(x = d ∧ y = c)) : loopMat M temp c d x y = M x y := by
  unfold loopMat
  split
  · unfold updateCell
    rw [if_neg h]
  · rfl

lemma loopTemp_c_nonneg (temp : String → ℚ) (c d : String) (h : 0 ≤ temp c) :
    0 ≤ loopTemp temp c d c := by
  by_cases hg : EPS < loopGive temp c d
  · rw [loopTemp_apply_c temp c d hg]
    have : loopGive temp c d ≤ temp c := min_le_left _ _
    linarith
  · rw [loopTemp_of_small temp c d hg]
    exact h

lemma loopTemp_d_nonpos (temp : String → ℚ) (c d : String) (h : temp d ≤ 0) :
    loopTemp temp c d d ≤ 0 := by
  by_cases hg : EPS < loopGive temp c d
  · rw [loopTemp_apply_d temp c d hg]
    have : loopGive temp c d ≤ -(temp d) := min_le_right _ _
    linarith
  · rw [loopTemp_of_small temp c d hg]
    exact h

/-- One loop iteration preserves, for every name, the quantity
`temp[n] + (column sum of n) - (row sum of n)`: the transfer moves `give`
out of the creditor's `temp` and into their column, and into the debtor's
`temp` and their row, in lockstep. -/
lemma step_invariant1 (roster : List String) (hros : roster.Nodup)
    (temp : String → ℚ) (c d : String) (M : SettleMatrix)
    (hc : c ∈ roster) (hd : d ∈ roster) (hcd : c ≠ d) (hMdc : M d c = 0) :
    ∀ n, loopTemp temp c d n + colSum (loopMat M temp c d) roster n
        - rowSum (loopMat M temp c d) roster n
      = temp n + colSum M roster n - rowSum M roster n := by
  intro n
  by_cases hg : EPS < loopGive temp c d
  · have hMm : loopMat M temp c d = updateCell M d c (loopGive temp c d) := by
      simp [loopMat, if_pos hg]
    rw [hMm]
    by_cases hn : n = c
    · subst hn
      rw [loopTemp_apply_c temp n d hg,
        colSum_updateCell_c M roster hros d n hd,
        rowSum_updateCell_ne M roster d n n hcd, hMdc]
      ring
    · by_cases hn2 : n = d
      · subst hn2
        rw [loopTemp_apply_d temp c n hg,
          rowSum_updateCell_d M roster hros n c hc,
          colSum_updateCell_ne M roster n c n (Ne.symm hcd), hMdc]
        ring
      · rw [loopTemp_apply_other temp c d n hn hn2,
          colSum_updateCell_ne M roster d c n hn,
          rowSum_updateCell_ne M roster d c n hn2]
  · rw [loopTemp_of_small temp c d hg, loopMat_of_small M temp c d hg]

/-- Main loop invariant of the greedy settlement walk.  From a state where
the remaining creditors have non-negative `temp`, the remaining debtors
non-positive `temp`, the two remaining lists are duplicate-free disjoint
sublists of the roster, and no (remaining debtor, remaining creditor) cell
has been written yet:
(1) `temp[n] + colSum n - rowSum n` is preserved for every name,
(2) names on neither list keep their `temp` value,
(3) remaining creditors end with `temp ≥ 0`,
(4) remaining debtors end with `temp ≤ 0`, and
(5) either every remaining creditor ends with `temp ≤ EPS` or every
remaining debtor ends with `temp ≥ -EPS`, according to which list the
walk exhausts. -/
lemma settleLoopF_invariant (roster : List String) (hros : roster.Nodup) :
    ∀ (fuel : ℕ) (cl dl : List String) (temp : String → ℚ) (M : SettleMatrix),
      cl.length + dl.length ≤ fuel →
      (∀ y ∈ cl, y ∈ roster) → (∀ x ∈ dl, x ∈ roster) →
      cl.Nodup → dl.Nodup →
      (∀ x ∈ cl, x ∉ dl) →
      (∀ y ∈ cl, 0 ≤ temp y) → (∀ x ∈ dl, temp x ≤ 0) →
      (∀ x ∈ dl, ∀ y ∈ cl, M x y = 0) →
      (∀ n, (settleLoopF fuel temp cl dl M).2 n
            + colSum (settleLoopF fuel temp cl dl M).1 roster n
            - rowSum (settleLoopF fuel temp cl dl M).1 roster n
          = temp n + colSum M roster n - rowSum M roster n) ∧
      (∀ n, n ∉ cl → n ∉ dl → (settleLoopF fuel temp cl dl M).2 n = temp n) ∧
      (∀ y ∈ cl, 0 ≤ (settleLoopF fuel temp cl dl M).2 y) ∧
      (∀ x ∈ dl, (settleLoopF fuel temp cl dl M).2 x ≤ 0) ∧
      ((∀ y ∈ cl, (settleLoopF fuel temp cl dl M).2 y ≤ EPS) ∨
       (∀ x ∈ dl, -EPS ≤ (settleLoopF fuel temp cl dl M).2 x)) := by
  intro fuel
  induction fuel with
  | zero =>
    intro cl dl temp M hfuel _ _ _ _ _ hC hD _
    have hcl : cl = [] := List.length_eq_zero.mp (by omega)
    have hdl : dl = [] := List.length_eq_zero.mp (by omega)
    subst hcl
    subst hdl
    exact ⟨fun n => rfl, fun n _ _ => rfl, by simp, by simp, Or.inl (by simp)⟩
  | succ fuel ih =>
    intro cl dl temp M hfuel hclR hdlR hclnd hdlnd hdisj hC hD hM
    rcases cl with _ | ⟨c, cs⟩
    · rw [settleLoopF_nil_cred]
      exact ⟨fun n => rfl, fun n _ _ => rfl, by simp, hD, Or.inl (by simp)⟩
    rcases dl with _ | ⟨d, ds⟩
    · rw [settleLoopF_nil_debt]
      exact ⟨fun n => rfl, fun n _ _ => rfl, hC, by simp, Or.inr (by simp)⟩
    have hcR : c ∈ roster := hclR c (List.mem_cons_self c cs)
    have hdR : d ∈ roster := hdlR d (List.mem_cons_self d ds)
    have hcd : c ≠ d :=
      fun e => hdisj c (List.mem_cons_self c cs) (e ▸ List.mem_cons_self d ds)
    have hMdc : M d c = 0 :=
      hM d (List.mem_cons_self d ds) c (List.mem_cons_self c cs)
    have hstep := step_invariant1 roster hros temp c d M hcR hdR hcd hMdc
    have hcns : c ∉ cs := (List.nodup_cons.mp hclnd).1
    have hdns : d ∉ ds := (List.nodup_cons.mp hdlnd).1
    have hclnd' : cs.Nodup := (List.nodup_cons.mp hclnd).2
    have hdlnd' : ds.Nodup := (List.nodup_cons.mp hdlnd).2
    have hcndl : c ∉ d :: ds := hdisj c (List.mem_cons_self c cs)
    have hdncl : d ∉ c :: cs := fun e => hdisj d e (List.mem_cons_self d ds)
    have hcnds : c ∉ ds := fun e => hcndl (List.mem_cons_of_mem d e)
    have hdncs : d ∉ cs := fun e => hdncl (List.mem_cons_of_mem c e)
    have hclR' : ∀ y ∈ cs, y ∈ roster := fun y hy => hclR y (List.mem_cons_of_mem c hy)
    have hdlR' : ∀ x ∈ ds, x ∈ roster := fun x hx => hdlR x (List.mem_cons_of_mem d hx)
    have hdisjA : ∀ x ∈ cs, x ∉ d :: ds :=
      fun x hx => hdisj x (List.mem_cons_of_mem c hx)
    have hdisjT : ∀ x ∈ cs, x ∉ ds :=
      fun x hx h' => hdisjA x hx (List.mem_cons_of_mem d h')
    have hdisjC : ∀ x ∈ c :: cs, x ∉ ds :=
      fun x hx h' => hdisj x hx (List.mem_cons_of_mem d h')
    have ht2cs : ∀ y ∈ cs, loopTemp temp c d y = temp y := fun y hy =>
      loopTemp_apply_other temp c d y (fun e => hcns (e ▸ hy))
        (fun e => hdisjA y hy (e ▸ List.mem_cons_self d ds))
    have ht2ds : ∀ x ∈ ds, loopTemp temp c d x = temp x := fun x hx =>
      loopTemp_apply_other temp c d x (fun e => hcnds (e ▸ hx))
        (fun e => hdns (e ▸ hx))
    have hC'' : ∀ y ∈ cs, 0 ≤ loopTemp temp c d y :=
      fun y hy => (ht2cs y hy).symm ▸ hC y (List.mem_cons_of_mem c hy)
    have hD'' : ∀ x ∈ ds, loopTemp temp c d x ≤ 0 :=
      fun x hx => (ht2ds x hx).symm ▸ hD x (List.mem_cons_of_mem d hx)
    have hc0 : 0 ≤ loopTemp temp c d c :=
      loopTemp_c_nonneg temp c d (hC c (List.mem_cons_self c cs))
    have hd0 : loopTemp temp c d d ≤ 0 :=
      loopTemp_d_nonpos temp c d (hD d (List.mem_cons_self d ds))
    have hCfull : ∀ y ∈ c :: cs, 0 ≤ loopTemp temp c d y := by
      intro y hy
      rcases List.mem_cons.mp hy with h | h
      · subst h; exact hc0
      · exact hC'' y h
    have hDfull : ∀ x ∈ d :: ds, loopTemp temp c d x ≤ 0 := by
      intro x hx
      rcases List.mem_cons.mp hx with h | h
      · subst h; exact hd0
      · exact hD'' x h
    have hMA : ∀ x ∈ ds, ∀ y ∈ cs, loopMat M temp c d x y = 0 := by
      intro x hx y hy
      rw [loopMat_cell_eq M temp c d x y (fun h => hdns (h.1 ▸ hx))]
      exact hM x (List.mem_cons_of_mem d hx) y (List.mem_cons_of_mem c hy)
    have hMB : ∀ x ∈ d :: ds, ∀ y ∈ cs, loopMat M temp c d x y = 0 := by
      intro x hx y hy
      rw [loopMat_cell_eq M temp c d x y (fun h => hcns (h.2 ▸ hy))]
      exact hM x hx y (List.mem_cons_of_mem c hy)
    have hMC : ∀ x ∈ ds, ∀ y ∈ c :: cs, loopMat M temp c d x y = 0 := by
      intro x hx y hy
      rw [loopMat_cell_eq M temp c d x y (fun h => hdns (h.1 ▸ hx))]
      exact hM x (List.mem_cons_of_mem d hx) y hy
    have hlen : (c :: cs).length + (d :: ds).length ≤ fuel + 1 := hfuel
    simp only [List.length_cons] at hlen
    rw [settleLoopF_succ_cons]
    by_cases h1 : loopTemp temp c d c ≤ EPS
    · by_cases h2 : -EPS ≤ loopTemp temp c d d
      · rw [if_pos h1, if_pos h2]
        obtain ⟨I1, I2, I3, I4, I5⟩ := ih cs ds (loopTemp temp c d)
          (loopMat M temp c d) (by omega) hclR' hdlR' hclnd' hdlnd'
          hdisjT hC'' hD'' hMA
        have hc2 : (settleLoopF fuel (loopTemp temp c d) cs ds
            (loopMat M temp c d)).2 c = loopTemp temp c d c := I2 c hcns hcnds
        have hd2 : (settleLoopF fuel (loopTemp temp c d) cs ds
            (loopMat M temp c d)).2 d = loopTemp temp c d d := I2 d hdncs hdns
        refine ⟨fun n => (I1 n).trans (hstep n), ?_, ?_, ?_, ?_⟩
        · intro n hnc hnd
          rw [I2 n (fun e => hnc (List.mem_cons_of_mem c e))
            (fun e => hnd (List.mem_cons_of_mem d e))]
          exact loopTemp_apply_other temp c d n
            (fun e => hnc (e ▸ List.mem_cons_self c cs))
            (fun e => hnd (e ▸ List.mem_cons_self d ds))
        · intro y hy
          rcases List.mem_cons.mp hy with h | h
          · subst h; rw [hc2]; exact hc0
          · exact I3 y h
        · intro x hx
          rcases List.mem_cons.mp hx with h | h
          · subst h; rw [hd2]; exact hd0
          · exact I4 x h
        · rcases I5 with h5 | h5
          · refine Or.inl fun y hy => ?_
            rcases List.mem_cons.mp hy with h | h
            · subst h; rw [hc2]; exact h1
            · exact h5 y h
          · refine Or.inr fun x hx => ?_
            rcases List.mem_cons.mp hx with h | h
            · subst h; rw [hd2]; exact h2
            · exact h5 x h
      · rw [if_pos h1, if_neg h2]
        obtain ⟨I1, I2, I3, I4, I5⟩ := ih cs (d :: ds) (loopTemp temp c d)
          (loopMat M temp c d) (by simp only [List.length_cons]; omega)
          hclR' hdlR hclnd' hdlnd hdisjA hC'' hDfull hMB
        have hc2 : (settleLoopF fuel (loopTemp temp c d) cs (d :: ds)
            (loopMat M temp c d)).2 c = loopTemp temp c d c := I2 c hcns hcndl
        refine ⟨fun n => (I1 n).trans (hstep n), ?_, ?_, I4, ?_⟩
        · intro n hnc hnd
          rw [I2 n (fun e => hnc (List.mem_cons_of_mem c e)) hnd]
          exact loopTemp_apply_other temp c d n
            (fun e => hnc (e ▸ List.mem_cons_self c cs))
            (fun e => hnd (e ▸ List.mem_cons_self d ds))
        · intro y hy
          rcases List.mem_cons.mp hy with h | h
          · subst h; rw [hc2]; exact hc0
          · exact I3 y h
        · rcases I5 with h5 | h5
          · refine Or.inl fun y hy => ?_
            rcases List.mem_cons.mp hy with h | h
            · subst h; rw [hc2]; exact h1
            · exact h5 y h
          · exact Or.inr h5
    · by_cases h2 : -EPS ≤ loopTemp temp c d d
      · rw [if_neg h1, if_pos h2]
        obtain ⟨I1, I2, I3, I4, I5⟩ := ih (c :: cs) ds (loopTemp temp c d)
          (loopMat M temp c d) (by simp only [List.length_cons]; omega)
          hclR hdlR' hclnd hdlnd' hdisjC hCfull hD'' hMC
        have hd2 : (settleLoopF fuel (loopTemp temp c d) (c :: cs) ds
            (loopMat M temp c d)).2 d = loopTemp temp c d d := I2 d hdncl hdns
        refine ⟨fun n => (I1 n).trans (hstep n), ?_, I3, ?_, ?_⟩
        · intro n hnc hnd
          rw [I2 n hnc (fun e => hnd (List.mem_cons_of_mem d e))]
          exact loopTemp_apply_other temp c d n
            (fun e => hnc (e ▸ List.mem_cons_self c cs))
            (fun e => hnd (e ▸ List.mem_cons_self d ds))
        · intro x hx
          rcases List.mem_cons.mp hx with h | h
          · subst h; rw [hd2]; exact hd0
          · exact I4 x h
        · rcases I5 with h5 | h5
          · exact Or.inl h5
          · refine Or.inr fun x hx => ?_
            rcases List.mem_cons.mp hx with h | h
            · subst h; rw [hd2]; exact h2
            · exact h5 x h
      · rcases loopTemp_advances temp c d with h | h
        · exact absurd h h1
        · exact absurd h h2

/-! ### From the loop invariant to the settlement conservation bound -/

lemma list_sum_le_length_mul (l : List String) (f : String → ℚ) (B : ℚ)
    (h : ∀ x ∈ l, f x ≤ B) : (l.map f).sum ≤ (l.length : ℚ) * B := by
  induction l with
  | nil => simp
  | cons a l ih =>
    rw [List.map_cons, List.sum_cons, List.length_cons]
    have h1 : f a ≤ B := h a (List.mem_cons_self a l)
    have h2 := ih (fun x hx => h x (List.mem_cons_of_mem a hx))
    push_cast
    linarith

lemma list_sum_map_neg (l : List String) (f : String → ℚ) :
    (l.map (fun a => -(f a))).sum = -((l.map f).sum) := by
  induction l with
  | nil => simp
  | cons a l ih =>
    simp [ih]
    ring

/-- A duplicate-free family of rationals that sums to zero and is bounded
above by `EPS` pointwise is bounded in absolute value by
`EPS · (family size)` pointwise: each member is minus the sum of the
others. -/
lemma abs_le_of_sum_zero_ub (l : List String) (f : String → ℚ)
    (hsum : (l.map f).sum = 0) (hub : ∀ m ∈ l, f m ≤ EPS) :
    ∀ n ∈ l, |f n| ≤ (l.length : ℚ) * EPS := by
  intro n hn
  have hperm : l.Perm (n :: l.erase n) := List.perm_cons_erase hn
  have hsum2 : f n + ((l.erase n).map f).sum = 0 := by
    have h := (hperm.map f).sum_eq
    rw [List.map_cons, List.sum_cons, hsum] at h
    linarith
  have hle : ((l.erase n).map f).sum ≤ ((l.erase n).length : ℚ) * EPS :=
    list_sum_le_length_mul _ f EPS (fun m hm => hub m (List.mem_of_mem_erase hm))
  have hcast : ((l.erase n).length : ℚ) ≤ (l.length : ℚ) := by
    exact_mod_cast List.Sublist.length_le (List.erase_sublist n l)
  have hlen1 : (1 : ℚ) ≤ (l.length : ℚ) := by
    exact_mod_cast List.length_pos.mpr (List.ne_nil_of_mem hn)
  have hmono : ((l.erase n).length : ℚ) * EPS ≤ (l.length : ℚ) * EPS :=
    mul_le_mul_of_nonneg_right hcast EPS_pos.le
  rw [abs_le]
  constructor
  · linarith
  · have h1 : f n ≤ EPS := hub n hn
    have h2 : 1 * EPS ≤ (l.length : ℚ) * EPS :=
      mul_le_mul_of_nonneg_right hlen1 EPS_pos.le
    linarith

/-- C1 (amended): for every net map that sums to zero over a
duplicate-free roster, each participant's matrix column sum (what they
receive) minus their row sum (what they pay out) differs from their
original net value by at most `EPS` times the roster size. -/
theorem C1_settlement_conservation :
    ∀ (net : String → ℚ) (roster : List String),
      roster.Nodup → (roster.map net).sum = 0 →
      ∀ n ∈ roster,
        |colSum (build_settlement_matrix net roster) roster n
          - rowSum (build_settlement_matrix net roster) roster n - net n|
          ≤ EPS * (roster.length : ℚ) := by
  intro net roster hros hzero
  obtain ⟨I1, I2, I3, I4, I5⟩ := settleLoopF_invariant roster hros
    ((roster.filter (fun n => decide (0 < net n))).length
      + (roster.filter (fun n => decide (net n < 0))).length)
    (roster.filter (fun n => decide (0 < net n)))
    (roster.filter (fun n => decide (net n < 0)))
    net zeroMatrix (le_refl _)
    (fun y hy => (List.mem_filter.mp hy).1)
    (fun x hx => (List.mem_filter.mp hx).1)
    (hros.filter _) (hros.filter _)
    (fun x hx hx' => by
      have h1 : 0 < net x := by simpa using (List.mem_filter.mp hx).2
      have h2 : net x < 0 := by simpa using (List.mem_filter.mp hx').2
      linarith)
    (fun y hy => by
      have : 0 < net y := by simpa using (List.mem_filter.mp hy).2
      linarith)
    (fun x hx => by
      have : net x < 0 := by simpa using (List.mem_filter.mp hx).2
      linarith)
    (fun _ _ _ _ => rfl)
  set R := settleLoopF
    ((roster.filter (fun n => decide (0 < net n))).length
      + (roster.filter (fun n => decide (net n < 0))).length)
    net (roster.filter (fun n => decide (0 < net n)))
    (roster.filter (fun n => decide (net n < 0))) zeroMatrix with hRdef
  have hbuild : build_settlement_matrix net roster = R.1 := rfl
  have I1' : ∀ n, R.2 n + colSum R.1 roster n - rowSum R.1 roster n = net n := by
    intro n
    have h := I1 n
    rwa [colSum_zeroMatrix, rowSum_zeroMatrix, add_zero, sub_zero] at h
  have hswap : (roster.map (fun n => colSum R.1 roster n)).sum
      = (roster.map (fun m => rowSum R.1 roster m)).sum := by
    simp only [colSum, rowSum]
    exact list_sum_swap roster roster (fun m n => R.1 m n)
  have hzero' : (roster.map (fun n => net n)).sum = 0 := hzero
  have hsumR : (roster.map (fun n => R.2 n)).sum = 0 := by
    have e : (roster.map (fun n => R.2 n)).sum
        = (roster.map (fun n =>
            (net n + rowSum R.1 roster n) - colSum R.1 roster n)).sum := by
      apply congrArg
      apply List.map_congr_left
      intro n _
      have h := I1' n
      linarith
    rw [e, list_sum_map_sub, list_sum_map_add, hswap, hzero']
    ring
  have hmemC : ∀ m ∈ roster, 0 < net m →
      m ∈ roster.filter (fun n => decide (0 < net n)) :=
    fun m hm h => List.mem_filter.mpr ⟨hm, by simpa using h⟩
  have hmemD : ∀ m ∈ roster, net m < 0 →
      m ∈ roster.filter (fun n => decide (net n < 0)) :=
    fun m hm h => List.mem_filter.mpr ⟨hm, by simpa using h⟩
  have hnotC : ∀ m, net m = 0 → m ∉ roster.filter (fun n => decide (0 < net n)) :=
    fun m h hc => by
      have : 0 < net m := by simpa using (List.mem_filter.mp hc).2
      linarith
  have hnotD : ∀ m, net m = 0 → m ∉ roster.filter (fun n => decide (net n < 0)) :=
    fun m h hc => by
      have : net m < 0 := by simpa using (List.mem_filter.mp hc).2
      linarith
  intro n hn
  have heq : colSum (build_settlement_matrix net roster) roster n
      - rowSum (build_settlement_matrix net roster) roster n - net n = -(R.2 n) := by
    rw [hbuild]
    have h := I1' n
    linarith
  rw [heq, abs_neg, mul_comm]
  rcases I5 with h5 | h5
  · have hub : ∀ m ∈ roster, R.2 m ≤ EPS := by
      intro m hm
      rcases lt_trichotomy (net m) 0 with h | h | h
      · exact le_trans (I4 m (hmemD m hm h)) EPS_pos.le
      · rw [I2 m (hnotC m h) (hnotD m h), h]
        exact EPS_pos.le
      · exact h5 m (hmemC m hm h)
    exact abs_le_of_sum_zero_ub roster (fun m => R.2 m) hsumR hub n hn
  · have hub : ∀ m ∈ roster, -(R.2 m) ≤ EPS := by
      intro m hm
      rcases lt_trichotomy (net m) 0 with h | h | h
      · have := h5 m (hmemD m hm h)
        linarith
      · rw [I2 m (hnotC m h) (hnotD m h), h]
        simpa using EPS_pos.le
      · have := I3 m (hmemC m hm h)
        have := EPS_pos.le
        linarith
    have hsumN : (roster.map (fun m => -(R.2 m))).sum = 0 := by
      rw [list_sum_map_neg, hsumR, neg_zero]
    have h := abs_le_of_sum_zero_ub roster (fun m => -(R.2 m)) hsumN hub n hn
    rwa [abs_neg] at h

/-- C1 witness at the concrete net `{Alice:+1, Bob:-1}` over roster
`[Alice, Bob]`. -/
theorem C1_settlement_conservation_witness :
    (["Alice", "Bob"] : List String).Nodup ∧
    ((["Alice", "Bob"] : List String).map netPair).sum = 0 ∧
    |colSum (build_settlement_matrix netPair ["Alice", "Bob"]) ["Alice", "Bob"] "Alice"
      - rowSum (build_settlement_matrix netPair ["Alice", "Bob"]) ["Alice", "Bob"] "Alice"
      - netPair "Alice"|
      ≤ EPS * (((["Alice", "Bob"] : List String).length : ℕ) : ℚ) :=
  ⟨by decide, by norm_num +decide [netPair],
   C1_settlement_conservation netPair ["Alice", "Bob"] (by decide)
     (by norm_num +decide [netPair]) "Alice" (by decide)⟩

end TripApp
